import Mathlib

/-!
Shallow embedding of the filesystem commands in `src-tauri/src/lib.rs`.

The core is `read_dir_recursive`, which walks a directory tree, filters out
hidden entries and a fixed ignore-set, recurses into sub-directories when
requested, and sorts each sibling group (directories first, then
case-insensitive name order).  The on-disk filesystem is modelled by the
inductive type `FS`; OS-level read failures are modelled by dedicated
constructors carrying the OS error text.
-/

/-- Mirrors `struct FileNode` from the source: one entry of a listing. -/
inductive FileNode where
  | mk (name : String) (path : String) (is_dir : Bool)
      (children : Option (List FileNode))

def FileNode.name : FileNode → String
  | .mk n _ _ _ => n

def FileNode.path : FileNode → String
  | .mk _ p _ _ => p

def FileNode.is_dir : FileNode → Bool
  | .mk _ _ d _ => d

def FileNode.children : FileNode → Option (List FileNode)
  | .mk _ _ _ c => c

/-- Model of the part of the on-disk filesystem visible to the traversal.
`file` is a non-directory entry; `dir` is a readable directory with its
entries in the order `fs::read_dir` yields them; `unreadableDir` is a
directory (`path.is_dir()` is true) on which `fs::read_dir` fails with the
given OS error text; `badEntry` models an `Err` item yielded by the
`read_dir` iterator (the `entry?` failure), carrying the OS error text. -/
inductive FS where
  | file (name : String)
  | dir (name : String) (entries : List FS)
  | unreadableDir (name : String) (err : String)
  | badEntry (err : String)

/-- The entry's base name, as `entry.file_name().to_string_lossy()` (lossy
UTF-8 conversion is abstracted: names in the model are already strings). -/
def FS.name : FS → String
  | .file n => n
  | .dir n _ => n
  | .unreadableDir n _ => n
  | .badEntry _ => ""

/-- `path.is_dir()` for the entry: true for directories (readable or not). -/
def FS.isDir : FS → Bool
  | .dir _ _ => true
  | .unreadableDir _ _ => true
  | _ => false

/-- The error of the `entry?` step: `some` exactly for a failed iterator item. -/
def FS.entryErr : FS → Option String
  | .badEntry e => some e
  | _ => none

/-- Models Rust `str::starts_with(char)`: tests the first character.
Written over the character list so it evaluates in the kernel. -/
def startsWithChar (s : String) (c : Char) : Bool :=
  match s.data with
  | [] => false
  | d :: _ => d == c

/-- Models Rust `str::ends_with(&str)`: suffix test on the character list
(for valid UTF-8 the byte-suffix test used by Rust agrees with the
character-suffix test whenever the pattern is itself valid UTF-8). -/
def hasSuffix (s pat : String) : Bool :=
  pat.data.isSuffixOf s.data

/-- Models Rust `String::to_lowercase`, as `Char.toLower` mapped over the
characters (exact on ASCII names). -/
def strToLower (s : String) : String :=
  String.mk (s.data.map Char.toLower)

/-- The filter of line 97 of the source: hidden names (leading `'.'`) and the
fixed ignore-set `node_modules`, `target`, `__pycache__`. -/
def excluded (name : String) : Bool :=
  startsWithChar name '.' || name == "node_modules" || name == "target"
    || name == "__pycache__"

/-- Models `PathBuf::join` (via `entry.path()`) followed by
`to_string_lossy`, for a relative base name on a Unix-style path. -/
def joinPath (base name : String) : String :=
  if base = "" then name
  else if hasSuffix base "/" then base ++ name
  else base ++ "/" ++ name

/-- The comparator passed to `nodes.sort_by` in the source: directories
before files, ties broken by lowercased-name comparison (Rust's `String`
`cmp` is lexicographic on UTF-8 bytes, matched by `compare` on `String`). -/
def nodeCmp (a b : FileNode) : Ordering :=
  match a.is_dir, b.is_dir with
  | true, false => Ordering.lt
  | false, true => Ordering.gt
  | _, _ => compare (strToLower a.name) (strToLower b.name)

/-- `nodeCmp a b ≠ Greater`: the "a may come before b" relation induced by
the comparator. -/
def nodeLe (a b : FileNode) : Bool := !(nodeCmp a b == Ordering.gt)

/-- `nodeLe` as a relation, for use with `List.insertionSort`. -/
def nodeRel (a b : FileNode) : Prop := nodeLe a b = true

instance : DecidableRel nodeRel := fun a b =>
  inferInstanceAs (Decidable (nodeLe a b = true))

/-- `Vec::sort_by` with the source's comparator is a stable sort by a total
preorder, so its output is that of any stable sort by the same preorder;
it is modelled by `List.insertionSort nodeRel` (stable, structural). -/
def sortNodes (nodes : List FileNode) : List FileNode :=
  List.insertionSort nodeRel nodes

mutual

/-- `read_dir_recursive` from the source (lines 81–125): empty for a
non-directory path, error if enumeration fails, otherwise the filtered,
recursively expanded, sorted sibling group. -/
def read_dir_recursive (dirPath : String) (fs : FS) (recursive : Bool) :
    Except String (List FileNode) :=
  match fs with
  | .file _ => .ok []
  | .badEntry _ => .ok []
  | .unreadableDir _ e => .error e
  | .dir _ entries =>
      match buildNodes dirPath recursive entries with
      | .error e => .error e
      | .ok nodes => .ok (sortNodes nodes)

/-- The `for entry in entries` loop of the source, in iterator order:
propagate a failed iterator item, skip excluded names, recurse into
directories when `recursive`, and collect the nodes (pre-sort). -/
def buildNodes (dirPath : String) (recursive : Bool) :
    List FS → Except String (List FileNode)
  | [] => .ok []
  | entry :: rest =>
      match entry.entryErr with
      | some e => .error e
      | none =>
          if excluded entry.name then buildNodes dirPath recursive rest
          else
            match
              (if entry.isDir && recursive then
                Except.map some
                  (read_dir_recursive (joinPath dirPath entry.name) entry
                    recursive)
              else .ok none) with
            | .error e => .error e
            | .ok children =>
                match buildNodes dirPath recursive rest with
                | .error e => .error e
                | .ok restNodes =>
                    .ok (FileNode.mk entry.name (joinPath dirPath entry.name)
                      entry.isDir children :: restNodes)

end

/-- The `read_directory` command (lines 27–31): the call-site of the builder
with `recursive = true`; `root = none` models a path that does not exist
(on which `is_dir()` is false).  `map_err(to_string)` is the identity here
because errors are modelled as their text. -/
def read_directory (root : Option FS) (rootPath : String) :
    Except String (List FileNode) :=
  match root with
  | none => .ok []
  | some fs => read_dir_recursive rootPath fs true

/-! ### Ordering facts about the sort comparator -/

theorem nodeLe_iff {a b : FileNode} :
    nodeLe a b = true ↔
      (a.is_dir = true ∧ b.is_dir = false) ∨
        (a.is_dir = b.is_dir ∧ strToLower a.name ≤ strToLower b.name) := by
  have h0 : nodeLe a b = true ↔ nodeCmp a b ≠ Ordering.gt := by
    cases h : nodeCmp a b <;> simp [nodeLe, h] <;> rfl
  rw [h0]
  unfold nodeCmp
  cases ha : a.is_dir <;> cases hb : b.is_dir
  · simpa using @compare_le_iff_le String _ (strToLower a.name) (strToLower b.name)
  · simp
  · simp
  · simpa using @compare_le_iff_le String _ (strToLower a.name) (strToLower b.name)

instance : IsTrans FileNode nodeRel := by
  constructor
  intro a b c hab hbc
  unfold nodeRel at *
  rw [nodeLe_iff] at *
  rcases hab with ⟨ha, hb⟩ | ⟨hab, hle⟩ <;>
    rcases hbc with ⟨hb', hc⟩ | ⟨hbc, hle'⟩
  · exact absurd hb' (by rw [hb]; exact Bool.false_ne_true)
  · exact Or.inl ⟨ha, hbc ▸ hb⟩
  · exact Or.inl ⟨hab ▸ hb', hc⟩
  · exact Or.inr ⟨hab.trans hbc, hle.trans hle'⟩

instance : IsTotal FileNode nodeRel := by
  constructor
  intro a b
  unfold nodeRel
  rw [nodeLe_iff, nodeLe_iff]
  rcases le_total (strToLower a.name) (strToLower b.name) with h | h
  · cases ha : a.is_dir <;> cases hb : b.is_dir <;> simp [ha, hb, h]
  · cases ha : a.is_dir <;> cases hb : b.is_dir <;> simp [ha, hb, h]

theorem sortNodes_sorted (nodes : List FileNode) :
    List.Pairwise nodeRel (sortNodes nodes) :=
  List.sorted_insertionSort nodeRel nodes

theorem sortNodes_perm (nodes : List FileNode) :
    List.Perm (sortNodes nodes) nodes :=
  List.perm_insertionSort nodeRel nodes

theorem mem_sortNodes {x : FileNode} {nodes : List FileNode} :
    x ∈ sortNodes nodes ↔ x ∈ nodes :=
  List.mem_insertionSort nodeRel

/-! ### Collecting every node of a result tree -/

mutual

/-- The node together with every node strictly below it. -/
def nodeAll : FileNode → List FileNode
  | .mk nm p d none => [.mk nm p d none]
  | .mk nm p d (some cs) => .mk nm p d (some cs) :: listAll cs

/-- Every node appearing in the forest, at any depth. -/
def listAll : List FileNode → List FileNode
  | [] => []
  | n :: rest => nodeAll n ++ listAll rest

end

theorem listAll_nil : listAll [] = [] := by
  rw [listAll]

theorem listAll_cons (n : FileNode) (rest : List FileNode) :
    listAll (n :: rest) = nodeAll n ++ listAll rest := by
  rw [listAll]

theorem mem_listAll {x : FileNode} :
    ∀ {ns : List FileNode}, x ∈ listAll ns ↔ ∃ n ∈ ns, x ∈ nodeAll n
  | [] => by simp [listAll_nil]
  | n :: rest => by
    simp [listAll_cons, List.mem_append, @mem_listAll x rest]

theorem mem_nodeAll {x n : FileNode} :
    x ∈ nodeAll n ↔
      x = n ∨ ∃ cs, n.children = some cs ∧ x ∈ listAll cs := by
  cases n with
  | mk nm p d c =>
      cases c with
      | none => simp [nodeAll, FileNode.children]
      | some cs => simp [nodeAll, FileNode.children]

/-! ### Induction over the filesystem model -/

theorem FS.inductionOn {P : FS → Prop}
    (hfile : ∀ n, P (FS.file n))
    (hbad : ∀ e, P (FS.badEntry e))
    (hunread : ∀ n e, P (FS.unreadableDir n e))
    (hdir : ∀ n entries, (∀ e ∈ entries, P e) → P (FS.dir n entries)) :
    ∀ fs, P fs
  | .file n => hfile n
  | .badEntry e => hbad e
  | .unreadableDir n e => hunread n e
  | .dir n entries =>
      hdir n entries (fun e he =>
        have : sizeOf e < sizeOf (FS.dir n entries) := by
          have h1 := List.sizeOf_lt_of_mem he
          simp only [FS.dir.sizeOf_spec]
          omega
        FS.inductionOn hfile hbad hunread hdir e)
termination_by fs => sizeOf fs

/-! ### Inversion: what `buildNodes` guarantees about each collected node -/

/-- The relationship `buildNodes` establishes between a source entry and the
node built from it. -/
def NodeFromEntry (p : String) (r : Bool) (e : FS) (node : FileNode) : Prop :=
  e.entryErr = none ∧ excluded e.name = false ∧
  node.name = e.name ∧ node.path = joinPath p e.name ∧
  node.is_dir = e.isDir ∧
  ((e.isDir && r) = true →
    ∃ cs, read_dir_recursive node.path e r = Except.ok cs ∧
      node.children = some cs) ∧
  ((e.isDir && r) = false → node.children = none)

theorem buildNodes_ok_mem {p : String} {r : Bool} :
    ∀ {items : List FS} {ns : List FileNode},
      buildNodes p r items = Except.ok ns →
      ∀ node ∈ ns, ∃ e ∈ items, NodeFromEntry p r e node
  | [], ns, h, node, hmem => by
      simp only [buildNodes] at h
      injection h with h
      subst h
      cases hmem
  | entry :: rest, ns, h, node, hmem => by
      simp only [buildNodes] at h
      split at h
      · cases h
      next hne =>
        split at h
        next hexc =>
          obtain ⟨e, he, hrel⟩ := buildNodes_ok_mem h node hmem
          exact ⟨e, List.mem_cons_of_mem _ he, hrel⟩
        next hexc =>
          split at h
          · cases h
          next children hch =>
            split at h
            · cases h
            next restNodes hrest =>
              injection h with h
              subst h
              rcases List.mem_cons.mp hmem with hhead | htail
              · subst hhead
                refine ⟨entry, List.mem_cons_self _ _, hne, by
                  simpa using hexc, rfl, rfl, rfl, ?_, ?_⟩
                · intro hdr
                  rw [hdr] at hch
                  simp only [if_true] at hch
                  cases hx : read_dir_recursive (joinPath p entry.name) entry r with
                  | error e' => rw [hx] at hch; cases hch
                  | ok cs =>
                      rw [hx] at hch
                      injection hch with hch
                      subst hch
                      exact ⟨cs, hx, rfl⟩
                · intro hdr
                  rw [hdr] at hch
                  simp only [Bool.false_eq_true, if_false] at hch
                  injection hch with hch
                  subst hch
                  rfl
              · obtain ⟨e, he, hrel⟩ := buildNodes_ok_mem hrest node htail
                exact ⟨e, List.mem_cons_of_mem _ he, hrel⟩

/-! ### C4: presence of the `children` field -/

theorem readDir_children_isSome (fs : FS) :
    ∀ p r ns, read_dir_recursive p fs r = Except.ok ns →
      ∀ n ∈ listAll ns, (n.children).isSome = (n.is_dir && r) := by
  induction fs using FS.inductionOn with
  | hfile nm =>
      intro p r ns h n hn
      simp only [read_dir_recursive] at h
      injection h with h
      subst h
      rw [listAll_nil] at hn
      cases hn
  | hbad e =>
      intro p r ns h n hn
      simp only [read_dir_recursive] at h
      injection h with h
      subst h
      rw [listAll_nil] at hn
      cases hn
  | hunread nm e =>
      intro p r ns h n hn
      simp only [read_dir_recursive] at h
      cases h
  | hdir nm entries ih =>
      intro p r ns h n hn
      simp only [read_dir_recursive] at h
      split at h
      · cases h
      next nodes hbn =>
        injection h with h
        subst h
        obtain ⟨root, hroot, hnroot⟩ := mem_listAll.mp hn
        obtain ⟨e, he, hne, hexc, hname, hpath, hisdir, hsome, hnone⟩ :=
          buildNodes_ok_mem hbn root (mem_sortNodes.mp hroot)
        rcases mem_nodeAll.mp hnroot with rfl | ⟨cs, hcs, hdeep⟩
        · cases hdr : (e.isDir && r) with
          | false =>
              rw [hnone hdr]
              rw [hisdir]
              simp [hdr]
          | true =>
              obtain ⟨cs, _, hch⟩ := hsome hdr
              rw [hch]
              rw [hisdir]
              simp [hdr]
        · cases hdr : (e.isDir && r) with
          | false => rw [hnone hdr] at hcs; cases hcs
          | true =>
              obtain ⟨cs', hcs', hch⟩ := hsome hdr
              rw [hch] at hcs
              injection hcs with hcs
              subst hcs
              exact ih e he root.path r cs' hcs' n hdeep

/-- **C4**: in any listing result, a node carries a `children` sequence
(possibly empty) exactly when it is a directory and recursion is enabled;
this holds at every depth of the returned tree, and with
`recursive = false` every top-level directory entry has `children` absent. -/
theorem C4_children_present_iff_dir_and_recursive
    (dirPath : String) (fs : FS) (recursive : Bool) (ns : List FileNode)
    (h : read_dir_recursive dirPath fs recursive = Except.ok ns) :
    ∀ n ∈ listAll ns,
      (∃ cs, n.children = some cs) ↔ (n.is_dir = true ∧ recursive = true) := by
  intro n hn
  have hiff := readDir_children_isSome fs dirPath recursive ns h n hn
  cases hc : n.children with
  | none =>
      rw [hc] at hiff
      simp only [Option.isSome_none] at hiff
      constructor
      · intro ⟨cs, hcs⟩; cases hcs
      · intro ⟨hd, hr⟩
        rw [hd, hr] at hiff
        cases hiff
  | some cs =>
      rw [hc] at hiff
      simp only [Option.isSome_some] at hiff
      constructor
      · intro _
        constructor
        · cases hd : n.is_dir
          · rw [hd] at hiff; simp at hiff
          · rfl
        · cases hr : recursive
          · rw [hr] at hiff; simp at hiff
          · rfl
      · intro _
        exact ⟨cs, rfl⟩

/-! ### C3: non-directory root -/

/-- `root_path.is_dir()` at the root of a listing: false when the path does
not exist (`root = none`) and false for a non-directory entry. -/
def rootIsDir : Option FS → Bool
  | none => false
  | some fs => fs.isDir

/-- **C3**: when the root path does not denote a directory — including a
path that does not exist (`none`) and a path denoting a regular file — the
listing operation returns success with an empty sequence, not an error. -/
theorem C3_non_directory_root_yields_empty (root : Option FS) (p : String)
    (h : rootIsDir root = false) :
    read_directory root p = Except.ok [] := by
  cases root with
  | none => rfl
  | some fs =>
      cases fs with
      | file n => simp [read_directory, read_dir_recursive]
      | badEntry e => simp [read_directory, read_dir_recursive]
      | dir n entries => simp [rootIsDir, FS.isDir] at h
      | unreadableDir n e => simp [rootIsDir, FS.isDir] at h

/-- Witness for C3: a nonexistent root path and a regular-file root path. -/
theorem C3_non_directory_root_yields_empty_witness :
    read_directory none "missing" = Except.ok [] ∧
      read_directory (some (FS.file "notes.txt")) "notes.txt" =
        Except.ok [] :=
  ⟨C3_non_directory_root_yields_empty none "missing" (by decide),
   C3_non_directory_root_yields_empty (some (FS.file "notes.txt"))
     "notes.txt" (by decide)⟩

/-! ### C9: path consistency -/

/-- Path consistency of a listed forest under a listing root `p`: each
node's `path` is `p` joined with the node's `name`, and each populated
`children` forest is consistent under that node's own `path`. -/
inductive PathsOk : String → List FileNode → Prop where
  | nil (p : String) : PathsOk p []
  | cons (p : String) (n : FileNode) (rest : List FileNode)
      (hpath : n.path = joinPath p n.name)
      (hchildren : ∀ cs, n.children = some cs → PathsOk n.path cs)
      (hrest : PathsOk p rest) : PathsOk p (n :: rest)

theorem pathsOk_iff_forall {p : String} {ns : List FileNode} :
    PathsOk p ns ↔
      ∀ n ∈ ns, n.path = joinPath p n.name ∧
        ∀ cs, n.children = some cs → PathsOk n.path cs := by
  constructor
  · intro h
    induction h with
    | nil _ => intro n hn; cases hn
    | cons _ m rest hpath hchildren _ _ ihrest =>
        intro n hn
        rcases List.mem_cons.mp hn with rfl | htail
        · exact ⟨hpath, hchildren⟩
        · exact ihrest n htail
  · induction ns with
    | nil => intro _; exact PathsOk.nil p
    | cons m rest ihrest =>
        intro h
        exact PathsOk.cons p m rest (h m (List.mem_cons_self _ _)).1
          (h m (List.mem_cons_self _ _)).2
          (ihrest fun n hn => h n (List.mem_cons_of_mem _ hn))

/-- **C9** (implicit): every node's `path` equals the path of the directory
being listed joined with the node's `name` (itself the entry's base name,
lossily converted — names in the model are the converted strings), at every
depth of the returned tree. -/
theorem C9_paths_extend_listing_root (fs : FS) :
    ∀ dirPath recursive ns,
      read_dir_recursive dirPath fs recursive = Except.ok ns →
      PathsOk dirPath ns := by
  induction fs using FS.inductionOn with
  | hfile nm =>
      intro p r ns h
      simp only [read_dir_recursive] at h
      injection h with h
      subst h
      exact PathsOk.nil p
  | hbad e =>
      intro p r ns h
      simp only [read_dir_recursive] at h
      injection h with h
      subst h
      exact PathsOk.nil p
  | hunread nm e =>
      intro p r ns h
      simp only [read_dir_recursive] at h
      cases h
  | hdir nm entries ih =>
      intro p r ns h
      simp only [read_dir_recursive] at h
      split at h
      · cases h
      next nodes hbn =>
        injection h with h
        subst h
        rw [pathsOk_iff_forall]
        intro n hn
        obtain ⟨e, he, hne, hexc, hname, hpath, hisdir, hsome, hnone⟩ :=
          buildNodes_ok_mem hbn n (mem_sortNodes.mp hn)
        refine ⟨by rw [hpath, hname], ?_⟩
        intro cs hcs
        cases hdr : (e.isDir && r) with
        | false => rw [hnone hdr] at hcs; cases hcs
        | true =>
            obtain ⟨cs', hcs', hch⟩ := hsome hdr
            rw [hch] at hcs
            injection hcs with hcs
            subst hcs
            exact ih e he n.path r cs' hcs'

/-! ### A concrete listing used by several witnesses (the spec §8 scenario) -/

theorem listing_scenario_eval :
    read_dir_recursive "root"
      (FS.dir "root" [FS.file "B.txt", FS.dir "a" [], FS.file ".hidden",
        FS.dir "node_modules" [FS.file "x"]]) true =
      Except.ok [FileNode.mk "a" "root/a" true (some []),
        FileNode.mk "B.txt" "root/B.txt" false none] := by
  simp +decide [read_dir_recursive, buildNodes, FS.entryErr, FS.name, FS.isDir,
    excluded, startsWithChar, joinPath, hasSuffix, sortNodes, List.insertionSort,
    List.orderedInsert, nodeRel, nodeLe, nodeCmp, strToLower, FileNode.name,
    FileNode.is_dir, Except.map]

/-- Witness for C4: in the concrete listing above, the directory node has
`children` present and the file node would not. -/
theorem C4_children_present_iff_dir_and_recursive_witness :
    (∃ cs, (FileNode.mk "a" "root/a" true (some [])).children = some cs) ↔
      ((FileNode.mk "a" "root/a" true (some [])).is_dir = true ∧
        true = true) :=
  C4_children_present_iff_dir_and_recursive "root"
    (FS.dir "root" [FS.file "B.txt", FS.dir "a" [], FS.file ".hidden",
      FS.dir "node_modules" [FS.file "x"]]) true
    [FileNode.mk "a" "root/a" true (some []),
      FileNode.mk "B.txt" "root/B.txt" false none]
    listing_scenario_eval
    (FileNode.mk "a" "root/a" true (some []))
    (by simp [listAll_cons, listAll_nil, nodeAll])

/-- Witness for C9 on the same concrete listing. -/
theorem C9_paths_extend_listing_root_witness :
    PathsOk "root" [FileNode.mk "a" "root/a" true (some []),
      FileNode.mk "B.txt" "root/B.txt" false none] :=
  C9_paths_extend_listing_root
    (FS.dir "root" [FS.file "B.txt", FS.dir "a" [], FS.file ".hidden",
      FS.dir "node_modules" [FS.file "x"]]) "root" true _
    listing_scenario_eval

/-! ### C1: the ordering invariant -/

/-- The spec's sibling ordering between consecutive entries: a directory
strictly before a file, or two entries of the same kind in case-insensitive
(lowercased) name order. -/
def nodeOrderOk (a b : FileNode) : Prop :=
  (a.is_dir = true ∧ b.is_dir = false) ∨
    (a.is_dir = b.is_dir ∧ strToLower a.name ≤ strToLower b.name)

/-- **C1**: in every listing produced by the builder — at the root and in
every recursively produced `children` sequence — directories precede files,
and within each kind entries are in case-insensitive name order. -/
theorem C1_listing_ordered (fs : FS) :
    ∀ dirPath recursive ns,
      read_dir_recursive dirPath fs recursive = Except.ok ns →
      List.Pairwise nodeOrderOk ns ∧
        ∀ n ∈ listAll ns, ∀ cs, n.children = some cs →
          List.Pairwise nodeOrderOk cs := by
  induction fs using FS.inductionOn with
  | hfile nm =>
      intro p r ns h
      simp only [read_dir_recursive] at h
      injection h with h
      subst h
      exact ⟨List.Pairwise.nil, by rw [listAll_nil]; intro n hn; cases hn⟩
  | hbad e =>
      intro p r ns h
      simp only [read_dir_recursive] at h
      injection h with h
      subst h
      exact ⟨List.Pairwise.nil, by rw [listAll_nil]; intro n hn; cases hn⟩
  | hunread nm e =>
      intro p r ns h
      simp only [read_dir_recursive] at h
      cases h
  | hdir nm entries ih =>
      intro p r ns h
      simp only [read_dir_recursive] at h
      split at h
      · cases h
      next nodes hbn =>
        injection h with h
        subst h
        constructor
        · exact (sortNodes_sorted nodes).imp (fun hab => nodeLe_iff.mp hab)
        · intro n hn cs hcs
          obtain ⟨root, hroot, hnroot⟩ := mem_listAll.mp hn
          obtain ⟨e, he, hne, hexc, hname, hpath, hisdir, hsome, hnone⟩ :=
            buildNodes_ok_mem hbn root (mem_sortNodes.mp hroot)
          rcases mem_nodeAll.mp hnroot with rfl | ⟨cs0, hcs0, hdeep⟩
          · cases hdr : (e.isDir && r) with
            | false => rw [hnone hdr] at hcs; cases hcs
            | true =>
                obtain ⟨cs', hcs', hch⟩ := hsome hdr
                rw [hch] at hcs
                injection hcs with hcs
                subst hcs
                exact (ih e he n.path r cs' hcs').1
          · cases hdr : (e.isDir && r) with
            | false => rw [hnone hdr] at hcs0; cases hcs0
            | true =>
                obtain ⟨cs', hcs', hch⟩ := hsome hdr
                rw [hch] at hcs0
                injection hcs0 with hcs0
                subst hcs0
                exact (ih e he root.path r cs' hcs').2 n hdeep cs hcs

/-- Witness for C1 on the concrete listing: the directory `a` precedes the
file `B.txt`, case-insensitively ordered. -/
theorem C1_listing_ordered_witness :
    List.Pairwise nodeOrderOk [FileNode.mk "a" "root/a" true (some []),
      FileNode.mk "B.txt" "root/B.txt" false none] :=
  (C1_listing_ordered
    (FS.dir "root" [FS.file "B.txt", FS.dir "a" [], FS.file ".hidden",
      FS.dir "node_modules" [FS.file "x"]])
    "root" true _ listing_scenario_eval).1

/-! ### C2: excluded entries are excluded entirely -/

mutual

/-- The filesystem with every excluded-named entry — and therefore its
entire subtree — removed, at every depth. -/
def pruneFS : FS → FS
  | .file n => .file n
  | .dir n entries => .dir n (pruneList entries)
  | .unreadableDir n e => .unreadableDir n e
  | .badEntry e => .badEntry e

def pruneList : List FS → List FS
  | [] => []
  | e :: rest =>
      if excluded e.name then pruneList rest
      else pruneFS e :: pruneList rest

end

theorem pruneFS_name (e : FS) : (pruneFS e).name = e.name := by
  cases e <;> simp [pruneFS, FS.name]

theorem pruneFS_isDir (e : FS) : (pruneFS e).isDir = e.isDir := by
  cases e <;> simp [pruneFS, FS.isDir]

theorem pruneFS_entryErr (e : FS) : (pruneFS e).entryErr = e.entryErr := by
  cases e <;> simp [pruneFS, FS.entryErr]

theorem entryErr_none_of_excluded {e : FS} (h : excluded e.name = true) :
    e.entryErr = none := by
  cases e with
  | badEntry err =>
      simp only [FS.name] at h
      exact absurd h (by decide)
  | file n => rfl
  | dir n es => rfl
  | unreadableDir n er => rfl

theorem buildNodes_cons_skip {p : String} {r : Bool} {entry : FS}
    {rest : List FS} (hne : entry.entryErr = none)
    (hexc : excluded entry.name = true) :
    buildNodes p r (entry :: rest) = buildNodes p r rest := by
  simp [buildNodes, hne, hexc]

theorem buildNodes_cons_keep {p : String} {r : Bool} {entry : FS}
    {rest : List FS} (hne : entry.entryErr = none)
    (hexc : excluded entry.name = false) :
    buildNodes p r (entry :: rest) =
      match
        (if entry.isDir && r then
          Except.map some
            (read_dir_recursive (joinPath p entry.name) entry r)
        else .ok none) with
      | .error e => .error e
      | .ok children =>
          match buildNodes p r rest with
          | .error e => .error e
          | .ok restNodes =>
              .ok (FileNode.mk entry.name (joinPath p entry.name)
                entry.isDir children :: restNodes) := by
  simp [buildNodes, hne, hexc]

theorem buildNodes_cons_bad {p : String} {r : Bool} {entry : FS}
    {rest : List FS} {err : String} (hne : entry.entryErr = some err) :
    buildNodes p r (entry :: rest) = Except.error err := by
  simp [buildNodes, hne]

theorem buildNodes_pruneList {p : String} {r : Bool} :
    ∀ {items : List FS},
      (∀ e ∈ items, ∀ q, read_dir_recursive q (pruneFS e) r =
        read_dir_recursive q e r) →
      buildNodes p r (pruneList items) = buildNodes p r items
  | [], _ => rfl
  | entry :: rest, hmem => by
      have hrest := @buildNodes_pruneList p r rest
        (fun e he q => hmem e (List.mem_cons_of_mem _ he) q)
      cases hexc : excluded entry.name with
      | true =>
          have hne : entry.entryErr = none := entryErr_none_of_excluded hexc
          have h1 : pruneList (entry :: rest) = pruneList rest := by
            simp [pruneList, hexc]
          rw [h1, hrest, buildNodes_cons_skip hne hexc]
      | false =>
          have h1 : pruneList (entry :: rest) =
              pruneFS entry :: pruneList rest := by
            simp [pruneList, hexc]
          rw [h1]
          cases hne : entry.entryErr with
          | some err =>
              have hne' : (pruneFS entry).entryErr = some err := by
                rw [pruneFS_entryErr, hne]
              rw [buildNodes_cons_bad hne', buildNodes_cons_bad hne]
          | none =>
              have hne' : (pruneFS entry).entryErr = none := by
                rw [pruneFS_entryErr, hne]
              have hexc' : excluded (pruneFS entry).name = false := by
                rw [pruneFS_name]; exact hexc
              rw [buildNodes_cons_keep hne' hexc',
                buildNodes_cons_keep hne hexc]
              rw [pruneFS_isDir, pruneFS_name, hrest,
                hmem entry (List.mem_cons_self _ _)
                  (joinPath p entry.name)]

theorem readDir_pruneFS (fs : FS) :
    ∀ p r, read_dir_recursive p (pruneFS fs) r =
      read_dir_recursive p fs r := by
  induction fs using FS.inductionOn with
  | hfile n => intro p r; simp [pruneFS]
  | hbad e => intro p r; simp [pruneFS]
  | hunread n e => intro p r; simp [pruneFS]
  | hdir n entries ih =>
      intro p r
      have h1 : pruneFS (FS.dir n entries) = FS.dir n (pruneList entries) := by
        simp [pruneFS]
      rw [h1]
      simp only [read_dir_recursive]
      rw [buildNodes_pruneList (fun e he q => ih e he q r)]

theorem readDir_no_excluded (fs : FS) :
    ∀ p r ns, read_dir_recursive p fs r = Except.ok ns →
      ∀ n ∈ listAll ns, excluded n.name = false := by
  induction fs using FS.inductionOn with
  | hfile nm =>
      intro p r ns h n hn
      simp only [read_dir_recursive] at h
      injection h with h
      subst h
      rw [listAll_nil] at hn
      cases hn
  | hbad e =>
      intro p r ns h n hn
      simp only [read_dir_recursive] at h
      injection h with h
      subst h
      rw [listAll_nil] at hn
      cases hn
  | hunread nm e =>
      intro p r ns h n hn
      simp only [read_dir_recursive] at h
      cases h
  | hdir nm entries ih =>
      intro p r ns h n hn
      simp only [read_dir_recursive] at h
      split at h
      · cases h
      next nodes hbn =>
        injection h with h
        subst h
        obtain ⟨root, hroot, hnroot⟩ := mem_listAll.mp hn
        obtain ⟨e, he, hne, hexc, hname, hpath, hisdir, hsome, hnone⟩ :=
          buildNodes_ok_mem hbn root (mem_sortNodes.mp hroot)
        rcases mem_nodeAll.mp hnroot with rfl | ⟨cs0, hcs0, hdeep⟩
        · rw [hname]; exact hexc
        · cases hdr : (e.isDir && r) with
          | false => rw [hnone hdr] at hcs0; cases hcs0
          | true =>
              obtain ⟨cs', hcs', hch⟩ := hsome hdr
              rw [hch] at hcs0
              injection hcs0 with hcs0
              subst hcs0
              exact ih e he root.path r cs' hcs' n hdeep

/-- **C2**: entries whose base name starts with the hidden marker `'.'` or
equals `node_modules`, `target` or `__pycache__` are excluded entirely at
every recursion depth: the result is unchanged if every such entry (with
its whole subtree) is removed from the filesystem beforehand, and no node
of the result, at any depth, carries an excluded name. -/
theorem C2_excluded_entries_fully_excluded (fs : FS) (dirPath : String)
    (recursive : Bool) :
    read_dir_recursive dirPath (pruneFS fs) recursive =
      read_dir_recursive dirPath fs recursive ∧
    ∀ ns, read_dir_recursive dirPath fs recursive = Except.ok ns →
      ∀ n ∈ listAll ns, excluded n.name = false :=
  ⟨readDir_pruneFS fs dirPath recursive,
   fun ns h n hn => readDir_no_excluded fs dirPath recursive ns h n hn⟩

/-- Witness for C2 on the concrete scenario with `.hidden` and
`node_modules` present. -/
theorem C2_excluded_entries_fully_excluded_witness :
    (read_dir_recursive "root"
      (pruneFS (FS.dir "root" [FS.file "B.txt", FS.dir "a" [],
        FS.file ".hidden", FS.dir "node_modules" [FS.file "x"]])) true =
      read_dir_recursive "root"
        (FS.dir "root" [FS.file "B.txt", FS.dir "a" [], FS.file ".hidden",
          FS.dir "node_modules" [FS.file "x"]]) true) ∧
    excluded (FileNode.mk "a" "root/a" true (some [])).name = false := by
  have h := C2_excluded_entries_fully_excluded
    (FS.dir "root" [FS.file "B.txt", FS.dir "a" [], FS.file ".hidden",
      FS.dir "node_modules" [FS.file "x"]]) "root" true
  exact ⟨h.1, h.2 _ listing_scenario_eval _
    (by simp [listAll_cons, listAll_nil, nodeAll])⟩

/-! ### C10: excluded entries can never cause an IOError -/

theorem buildNodes_middle_excluded {p : String} {r : Bool} {u : FS}
    (hu : excluded u.name = true) :
    ∀ (l1 l2 : List FS),
      buildNodes p r (l1 ++ u :: l2) = buildNodes p r (l1 ++ l2)
  | [], l2 => by
      simp only [List.nil_append]
      exact buildNodes_cons_skip (entryErr_none_of_excluded hu) hu
  | e :: l1, l2 => by
      have ih := @buildNodes_middle_excluded p r u hu l1 l2
      simp only [List.cons_append]
      cases hne : e.entryErr with
      | some err => rw [buildNodes_cons_bad hne, buildNodes_cons_bad hne]
      | none =>
          cases hexc : excluded e.name with
          | true =>
              rw [buildNodes_cons_skip hne hexc,
                buildNodes_cons_skip hne hexc, ih]
          | false =>
              rw [buildNodes_cons_keep hne hexc,
                buildNodes_cons_keep hne hexc, ih]

/-- **C10** (implicit): the exclusion decision uses only the entry's name
and happens before any attempt to enumerate the entry, so an excluded
entry — whatever it is, in particular an unreadable directory — contributes
nothing to the result and can never cause the listing to fail: the listing
of a directory containing it is identical to the listing without it. -/
theorem C10_excluded_entry_never_causes_error (u : FS)
    (hu : excluded u.name = true) (p nm : String) (r : Bool)
    (l1 l2 : List FS) :
    read_dir_recursive p (FS.dir nm (l1 ++ u :: l2)) r =
      read_dir_recursive p (FS.dir nm (l1 ++ l2)) r := by
  simp only [read_dir_recursive]
  rw [buildNodes_middle_excluded hu l1 l2]

/-- Witness for C10: an unreadable `.git` directory does not disturb the
listing of its parent. -/
theorem C10_excluded_entry_never_causes_error_witness :
    read_dir_recursive "root"
      (FS.dir "root" [FS.file "a.txt",
        FS.unreadableDir ".git" "permission denied"]) true =
      read_dir_recursive "root" (FS.dir "root" [FS.file "a.txt"]) true :=
  C10_excluded_entry_never_causes_error
    (FS.unreadableDir ".git" "permission denied") (by decide)
    "root" "root" true [FS.file "a.txt"] []

/-! ### C5: IO failures propagate to the top-level caller -/

mutual

/-- The first OS failure a recursive (`recursive = true`) traversal
encounters, in iterator order, skipping excluded names; `none` when the
traversal succeeds. -/
def firstErrFS : FS → Option String
  | .file _ => none
  | .badEntry _ => none
  | .unreadableDir _ e => some e
  | .dir _ entries => firstErrList entries

def firstErrList : List FS → Option String
  | [] => none
  | e :: rest =>
      match e.entryErr with
      | some err => some err
      | none =>
          if excluded e.name then firstErrList rest
          else
            match firstErrFS e with
            | some err => some err
            | none => firstErrList rest

end

mutual

/-- Every OS error text stored anywhere in the filesystem model. -/
def errTexts : FS → List String
  | .file _ => []
  | .badEntry e => [e]
  | .unreadableDir _ e => [e]
  | .dir _ entries => errTextsList entries

def errTextsList : List FS → List String
  | [] => []
  | e :: rest => errTexts e ++ errTextsList rest

end

mutual

theorem firstErrFS_mem : ∀ {fs : FS} {e : String},
    firstErrFS fs = some e → e ∈ errTexts fs
  | .file _, e, h => by simp [firstErrFS] at h
  | .badEntry _, e, h => by simp [firstErrFS] at h
  | .unreadableDir _ err, e, h => by
      simp only [firstErrFS] at h
      injection h with h
      subst h
      simp [errTexts]
  | .dir _ entries, e, h => by
      simp only [firstErrFS] at h
      simp only [errTexts]
      exact firstErrList_mem h

theorem firstErrList_mem : ∀ {items : List FS} {e : String},
    firstErrList items = some e → e ∈ errTextsList items
  | [], e, h => by simp [firstErrList] at h
  | x :: rest, e, h => by
      simp only [errTextsList, List.mem_append]
      cases hne : x.entryErr with
      | some err =>
          simp only [firstErrList, hne] at h
          injection h with h
          subst h
          cases x with
          | badEntry b =>
              injection hne with hne
              subst hne
              exact Or.inl (by simp [errTexts])
          | file n => cases hne
          | dir n es => cases hne
          | unreadableDir n er => cases hne
      | none =>
          simp only [firstErrList, hne] at h
          by_cases hexc : excluded x.name = true
          · rw [if_pos hexc] at h
            exact Or.inr (firstErrList_mem h)
          · rw [if_neg hexc] at h
            cases hfe : firstErrFS x with
            | some err =>
                rw [hfe] at h
                injection h with h
                subst h
                exact Or.inl (firstErrFS_mem hfe)
            | none =>
                rw [hfe] at h
                exact Or.inr (firstErrList_mem h)

end

theorem firstErrFS_of_not_dir {e : FS} (hne : e.entryErr = none)
    (hdr : e.isDir = false) : firstErrFS e = none := by
  cases e <;> simp_all [FS.entryErr, FS.isDir, firstErrFS]

mutual

theorem readDir_of_firstErr : ∀ (fs : FS) (p : String),
    (∀ e, firstErrFS fs = some e →
      read_dir_recursive p fs true = Except.error e) ∧
    (firstErrFS fs = none →
      ∃ ns, read_dir_recursive p fs true = Except.ok ns)
  | .file n, p => by
      constructor
      · intro e h; simp [firstErrFS] at h
      · intro _; exact ⟨[], by simp [read_dir_recursive]⟩
  | .badEntry b, p => by
      constructor
      · intro e h; simp [firstErrFS] at h
      · intro _; exact ⟨[], by simp [read_dir_recursive]⟩
  | .unreadableDir n err, p => by
      constructor
      · intro e h
        simp only [firstErrFS] at h
        injection h with h
        subst h
        simp [read_dir_recursive]
      · intro h; simp [firstErrFS] at h
  | .dir nm entries, p => by
      have hl := buildNodes_of_firstErrList entries p
      constructor
      · intro e h
        simp only [firstErrFS] at h
        simp only [read_dir_recursive]
        rw [hl.1 e h]
      · intro h
        simp only [firstErrFS] at h
        obtain ⟨ns, hns⟩ := hl.2 h
        refine ⟨sortNodes ns, ?_⟩
        simp only [read_dir_recursive]
        rw [hns]

theorem buildNodes_of_firstErrList : ∀ (items : List FS) (p : String),
    (∀ e, firstErrList items = some e →
      buildNodes p true items = Except.error e) ∧
    (firstErrList items = none →
      ∃ ns, buildNodes p true items = Except.ok ns)
  | [], p => by
      constructor
      · intro e h; simp [firstErrList] at h
      · intro _; exact ⟨[], by simp [buildNodes]⟩
  | entry :: rest, p => by
      cases hne : entry.entryErr with
      | some err =>
          constructor
          · intro e h
            simp only [firstErrList, hne] at h
            injection h with h
            subst h
            exact buildNodes_cons_bad hne
          · intro h
            simp only [firstErrList, hne] at h
            cases h
      | none =>
          have ihrest := buildNodes_of_firstErrList rest p
          cases hexc : excluded entry.name with
          | true =>
              constructor
              · intro e h
                simp only [firstErrList, hne, hexc, if_true] at h
                rw [buildNodes_cons_skip hne hexc]
                exact ihrest.1 e h
              · intro h
                simp only [firstErrList, hne, hexc, if_true] at h
                rw [buildNodes_cons_skip hne hexc]
                exact ihrest.2 h
          | false =>
              have ihent := readDir_of_firstErr entry (joinPath p entry.name)
              cases hdr : entry.isDir with
              | false =>
                  have hfe : firstErrFS entry = none :=
                    firstErrFS_of_not_dir hne hdr
                  constructor
                  · intro e h
                    simp only [firstErrList, hne, hexc, hfe,
                      Bool.false_eq_true, if_false] at h
                    rw [buildNodes_cons_keep hne hexc]
                    simp only [hdr, Bool.false_and, Bool.false_eq_true,
                      if_false]
                    rw [ihrest.1 e h]
                  · intro h
                    simp only [firstErrList, hne, hexc, hfe,
                      Bool.false_eq_true, if_false] at h
                    obtain ⟨ns, hns⟩ := ihrest.2 h
                    rw [buildNodes_cons_keep hne hexc]
                    simp only [hdr, Bool.false_and, Bool.false_eq_true,
                      if_false]
                    rw [hns]
                    exact ⟨_, rfl⟩
              | true =>
                  constructor
                  · intro e h
                    simp only [firstErrList, hne, hexc,
                      Bool.false_eq_true, if_false] at h
                    rw [buildNodes_cons_keep hne hexc]
                    simp only [hdr, Bool.true_and, if_true]
                    cases hfe : firstErrFS entry with
                    | some err =>
                        rw [hfe] at h
                        injection h with h
                        subst h
                        rw [ihent.1 _ hfe]
                        rfl
                    | none =>
                        rw [hfe] at h
                        obtain ⟨cs, hcs⟩ := ihent.2 hfe
                        rw [hcs]
                        simp only [Except.map]
                        rw [ihrest.1 e h]
                  · intro h
                    simp only [firstErrList, hne, hexc,
                      Bool.false_eq_true, if_false] at h
                    cases hfe : firstErrFS entry with
                    | some err => rw [hfe] at h; cases h
                    | none =>
                        rw [hfe] at h
                        obtain ⟨cs, hcs⟩ := ihent.2 hfe
                        obtain ⟨ns, hns⟩ := ihrest.2 h
                        rw [buildNodes_cons_keep hne hexc]
                        simp only [hdr, Bool.true_and, if_true]
                        rw [hcs]
                        simp only [Except.map]
                        rw [hns]
                        exact ⟨_, rfl⟩

end

/-- **C5**: during a recursive listing, a failure to enumerate any reachable
non-excluded sub-directory (or a failed entry read) makes the whole
`read_directory` call fail, and the failure it reports is one of the
underlying OS error texts present in the tree; an error result carries no
partial listing by construction of the result type. -/
theorem C5_io_failures_propagate (fs : FS) (p : String) :
    (∀ e, firstErrFS fs = some e →
      read_directory (some fs) p = Except.error e) ∧
    (∀ e, read_directory (some fs) p = Except.error e →
      firstErrFS fs = some e ∧ e ∈ errTexts fs) := by
  have hchar := readDir_of_firstErr fs p
  constructor
  · intro e h
    simp only [read_directory]
    exact hchar.1 e h
  · intro e h
    simp only [read_directory] at h
    cases hfe : firstErrFS fs with
    | none =>
        obtain ⟨ns, hns⟩ := hchar.2 hfe
        rw [hns] at h
        cases h
    | some err =>
        have herr := hchar.1 err hfe
        rw [herr] at h
        injection h with h
        subst h
        exact ⟨rfl, firstErrFS_mem hfe⟩

/-- Witness for C5: a failed entry read two levels down aborts the whole
recursive listing with the OS error text. -/
theorem C5_io_failures_propagate_witness :
    read_directory (some (FS.dir "root" [FS.file "a.txt",
      FS.dir "sub" [FS.badEntry "interrupted"]])) "root" =
      Except.error "interrupted" :=
  (C5_io_failures_propagate
    (FS.dir "root" [FS.file "a.txt",
      FS.dir "sub" [FS.badEntry "interrupted"]]) "root").1 "interrupted"
    (by simp +decide [firstErrFS, firstErrList, FS.entryErr, FS.name,
      FS.isDir, excluded, startsWithChar])

/-! ### C6: image data URLs -/

/-- The character at index `n` of the RFC 4648 standard base64 alphabet. -/
def b64Char (n : Nat) : Char :=
  "ABCDEFGHIJKLMNOPQRSTUVWXYZabcdefghijklmnopqrstuvwxyz0123456789+/".data.getD
    n 'A'

/-- Modelled from the spec: the payload is the standard base64 encoding of
the raw bytes — the external `base64` crate's STANDARD engine (RFC 4648
with `=` padding), which the source calls but whose code is not part of
this repository.  Bytes are naturals below 256. -/
def base64Encode : List Nat → String
  | [] => ""
  | [a] =>
      String.mk [b64Char (a / 4), b64Char (a % 4 * 16), '=', '=']
  | [a, b] =>
      String.mk [b64Char (a / 4), b64Char (a % 4 * 16 + b / 16),
        b64Char (b % 16 * 4), '=']
  | a :: b :: c :: rest =>
      String.mk [b64Char (a / 4), b64Char (a % 4 * 16 + b / 16),
        b64Char (b % 16 * 4 + c / 64), b64Char (c % 64)]
        ++ base64Encode rest

/-- The extension dispatch of `read_image_as_data_url` (lines 43–55 of the
source), testing path suffixes in the source's order. -/
def mimeType (path : String) : String :=
  if hasSuffix path ".png" then "image/png"
  else if hasSuffix path ".jpg" || hasSuffix path ".jpeg" then "image/jpeg"
  else if hasSuffix path ".gif" then "image/gif"
  else if hasSuffix path ".webp" then "image/webp"
  else if hasSuffix path ".bmp" then "image/bmp"
  else "application/octet-stream"

/-- `read_image_as_data_url` (lines 39–59): the file's bytes come from
`fs::read` (modelled as the given `Except`); on success the data URL is
assembled from the extension-based MIME type and the base64 payload. -/
def read_image_as_data_url (path : String)
    (readResult : Except String (List Nat)) : Except String String :=
  match readResult with
  | .error e => .error e
  | .ok bytes =>
      .ok ("data:" ++ mimeType path ++ ";base64," ++ base64Encode bytes)

theorem hasSuffix_append (stem pat : String) :
    hasSuffix (stem ++ pat) pat = true := by
  simp only [hasSuffix, String.data_append, List.isSuffixOf_iff_suffix]
  exact List.suffix_append stem.data pat.data

theorem hasSuffix_unique {s p q : String} (hp : hasSuffix s p = true)
    (hq : hasSuffix s q = true) :
    p.data.isSuffixOf q.data = true ∨ q.data.isSuffixOf p.data = true := by
  simp only [hasSuffix, List.isSuffixOf_iff_suffix] at *
  exact List.suffix_or_suffix_of_suffix hp hq

theorem not_hasSuffix_append {stem p q : String}
    (hpq : p.data.isSuffixOf q.data = false)
    (hqp : q.data.isSuffixOf p.data = false) :
    hasSuffix (stem ++ p) q = false := by
  cases hq : hasSuffix (stem ++ p) q with
  | false => rfl
  | true =>
      rcases hasSuffix_unique (hasSuffix_append stem p) hq with h | h
      · rw [h] at hpq; cases hpq
      · rw [h] at hqp; cases hqp

/-- **C6**: for every readable path the result is
`data:<mime>;base64,<payload>` where the MIME type is selected by the
path's extension suffix (`.png`, `.jpg`/`.jpeg`, `.gif`, `.webp`, `.bmp`,
anything else giving `application/octet-stream`) and the payload is the
standard base64 encoding of the raw bytes. -/
theorem C6_data_url_format (path stem : String) (bytes : List Nat) :
    read_image_as_data_url path (Except.ok bytes) =
      Except.ok ("data:" ++ mimeType path ++ ";base64," ++
        base64Encode bytes) ∧
    mimeType (stem ++ ".png") = "image/png" ∧
    mimeType (stem ++ ".jpg") = "image/jpeg" ∧
    mimeType (stem ++ ".jpeg") = "image/jpeg" ∧
    mimeType (stem ++ ".gif") = "image/gif" ∧
    mimeType (stem ++ ".webp") = "image/webp" ∧
    mimeType (stem ++ ".bmp") = "image/bmp" ∧
    (hasSuffix path ".png" = false → hasSuffix path ".jpg" = false →
      hasSuffix path ".jpeg" = false → hasSuffix path ".gif" = false →
      hasSuffix path ".webp" = false → hasSuffix path ".bmp" = false →
      mimeType path = "application/octet-stream") := by
  refine ⟨rfl, ?_, ?_, ?_, ?_, ?_, ?_, ?_⟩
  · simp [mimeType, hasSuffix_append]
  · have h1 : hasSuffix (stem ++ ".jpg") ".png" = false :=
      not_hasSuffix_append (by decide) (by decide)
    simp [mimeType, h1, hasSuffix_append]
  · have h1 : hasSuffix (stem ++ ".jpeg") ".png" = false :=
      not_hasSuffix_append (by decide) (by decide)
    simp [mimeType, h1, hasSuffix_append]
  · have h1 : hasSuffix (stem ++ ".gif") ".png" = false :=
      not_hasSuffix_append (by decide) (by decide)
    have h2 : hasSuffix (stem ++ ".gif") ".jpg" = false :=
      not_hasSuffix_append (by decide) (by decide)
    have h3 : hasSuffix (stem ++ ".gif") ".jpeg" = false :=
      not_hasSuffix_append (by decide) (by decide)
    simp [mimeType, h1, h2, h3, hasSuffix_append]
  · have h1 : hasSuffix (stem ++ ".webp") ".png" = false :=
      not_hasSuffix_append (by decide) (by decide)
    have h2 : hasSuffix (stem ++ ".webp") ".jpg" = false :=
      not_hasSuffix_append (by decide) (by decide)
    have h3 : hasSuffix (stem ++ ".webp") ".jpeg" = false :=
      not_hasSuffix_append (by decide) (by decide)
    have h4 : hasSuffix (stem ++ ".webp") ".gif" = false :=
      not_hasSuffix_append (by decide) (by decide)
    simp [mimeType, h1, h2, h3, h4, hasSuffix_append]
  · have h1 : hasSuffix (stem ++ ".bmp") ".png" = false :=
      not_hasSuffix_append (by decide) (by decide)
    have h2 : hasSuffix (stem ++ ".bmp") ".jpg" = false :=
      not_hasSuffix_append (by decide) (by decide)
    have h3 : hasSuffix (stem ++ ".bmp") ".jpeg" = false :=
      not_hasSuffix_append (by decide) (by decide)
    have h4 : hasSuffix (stem ++ ".bmp") ".gif" = false :=
      not_hasSuffix_append (by decide) (by decide)
    have h5 : hasSuffix (stem ++ ".bmp") ".webp" = false :=
      not_hasSuffix_append (by decide) (by decide)
    simp [mimeType, h1, h2, h3, h4, h5, hasSuffix_append]
  · intro h1 h2 h3 h4 h5 h6
    simp [mimeType, h1, h2, h3, h4, h5, h6]

/-- Witness for C6: a `.png` path yields a png data URL with the base64 of
the bytes of "Man", and an extensionless text path yields the octet-stream
MIME type. -/
theorem C6_data_url_format_witness :
    read_image_as_data_url "photo.png" (Except.ok [77, 97, 110]) =
      Except.ok "data:image/png;base64,TWFu" ∧
    mimeType "notes.txt" = "application/octet-stream" := by
  have h1 := C6_data_url_format "photo.png" "photo" [77, 97, 110]
  have h2 := C6_data_url_format "notes.txt" "x" []
  constructor
  · rw [h1.1]
    congr 1
  · exact h2.2.2.2.2.2.2.2 (by decide) (by decide) (by decide) (by decide)
      (by decide) (by decide)

/-! ### C7: write/read round-trip -/

/-- A stored file's content: a valid UTF-8 text (recorded as the string it
decodes to) or non-text bytes. -/
inductive FileContent where
  | text (s : String)
  | binary

/-- Modelled from the spec: the OS filesystem state seen by the file
read/write operations (std `fs::write` and `fs::read_to_string`, external
to this repository) — a map from path to stored content. -/
def FileStore := String → Option FileContent

/-- `write_file_content` (lines 62–64): overwrite the file at `path` — or
create it — with the UTF-8 bytes of `content`. -/
def write_file_content (st : FileStore) (path content : String) :
    FileStore :=
  fun q => if q = path then some (FileContent.text content) else st q

/-- `read_file_content` (lines 34–36): `fs::read_to_string` — the decoded
text on success, an error for a missing file or non-UTF-8 content. -/
def read_file_content (st : FileStore) (path : String) :
    Except String String :=
  match st path with
  | some (FileContent.text s) => Except.ok s
  | some FileContent.binary =>
      Except.error "stream did not contain valid UTF-8"
  | none => Except.error "No such file or directory"

/-- **C7**: writing a UTF-8 string to a path and then reading that path
returns the identical string, for every store, path and content. -/
theorem C7_write_read_roundtrip (st : FileStore) (path content : String) :
    read_file_content (write_file_content st path content) path =
      Except.ok content := by
  simp [read_file_content, write_file_content]

/-! ### C8: metadata -/

/-- What the OS `fs::metadata` call reports (external to the repository):
the directory/file flags, the length in bytes, and the modification time —
`none` when the OS cannot report one, otherwise signed seconds relative to
the Unix epoch (negative values precede the epoch, making
`duration_since(UNIX_EPOCH)` fail). -/
structure OsMetadata where
  osIsDir : Bool
  osIsFile : Bool
  osLen : Nat
  osModified : Option Int

/-- The JSON object produced by `get_file_metadata`. -/
structure MetadataOut where
  is_dir : Bool
  is_file : Bool
  size : Nat
  modified : Option Nat

/-- `get_file_metadata` (lines 66–79): propagate a failed stat; otherwise
report the flags, the byte size, and `modified` as whole seconds since the
epoch, absent when the OS cannot report it (or the time precedes the
epoch). -/
def get_file_metadata (stat : Except String OsMetadata) :
    Except String MetadataOut :=
  match stat with
  | .error e => .error e
  | .ok m =>
      .ok { is_dir := m.osIsDir, is_file := m.osIsFile, size := m.osLen,
            modified := m.osModified.bind
              (fun t => if t < 0 then none else some t.toNat) }

/-- **C8**: a successful metadata lookup reports `is_dir`, `is_file`, the
size in bytes and the optional `modified` seconds since the epoch; in
particular a 0-byte regular file yields `is_dir = false`, `is_file = true`,
`size = 0`, and `modified` is absent when the OS cannot report a
modification time. -/
theorem C8_metadata_fields (m : OsMetadata) :
    ∃ out, get_file_metadata (Except.ok m) = Except.ok out ∧
      out.is_dir = m.osIsDir ∧ out.is_file = m.osIsFile ∧
      out.size = m.osLen ∧
      (m.osModified = none → out.modified = none) ∧
      (∀ t : Int, m.osModified = some t → 0 ≤ t →
        out.modified = some t.toNat) ∧
      (m.osIsDir = false → m.osIsFile = true → m.osLen = 0 →
        out.is_dir = false ∧ out.is_file = true ∧ out.size = 0) := by
  refine ⟨_, rfl, rfl, rfl, rfl, ?_, ?_, ?_⟩
  · intro h
    simp [h]
  · intro t ht h0
    have hnot : ¬(t < 0) := by omega
    simp [ht, hnot]
  · intro h1 h2 h3
    exact ⟨h1, h2, h3⟩

/-- Witness for C8 on a 0-byte regular file with no reported mtime. -/
theorem C8_metadata_fields_witness :
    ∃ out, get_file_metadata (Except.ok (OsMetadata.mk false true 0 none)) =
      Except.ok out ∧ out.is_dir = false ∧ out.is_file = true ∧
      out.size = 0 ∧ out.modified = none := by
  obtain ⟨out, hout, h1, h2, h3, h4, _, _⟩ :=
    C8_metadata_fields (OsMetadata.mk false true 0 none)
  exact ⟨out, hout, h1, h2, h3, h4 rfl⟩
